import Mathlib

/-!
Shallow embedding of the blockchain node prototype (Go sources: block,
transaction and blockchain modules of the `blockchain` package).

Modelling conventions:
* SHA-256 (always used as `hex.EncodeToString(sha256.Sum256(bytes))`, a
  `String → String` map in the Go code) is an explicit parameter
  `H : String → String` of every definition that hashes.  No claim below
  depends on concrete SHA-256 values, only on how the code composes the
  hash; theorems are stated for every `H`.
* Go `int64` / `int` values (timestamps, heights, monetary values,
  output indices) are modelled as `Int`; the two `int64` operations that
  caller-supplied monetary values can actually overflow — the
  `totalInput` accumulator and the change subtraction inside
  `CreateTransaction` — wrap to the `int64` range via `wrap64`.
* Go `uint32` (the chain difficulty) is modelled as `Nat` with the
  increment performed modulo 2^32, matching Go unsigned overflow;
  Go `uint64` (the nonce) is likewise incremented modulo 2^64.
* `time.Now().Unix()` is an explicit `ts : Int` parameter.
* Go slices are `List`s; the `map[string][]TxOutput` UTXO set is an
  association list with unique keys, accessed only through lookup /
  replace / delete helpers (the Go code never iterates the map).
* Functions that Go terminates abnormally (index panic, or the unbounded
  mining loop not finding a hash) return `none` / a dedicated outcome
  constructor instead.
-/

structure TxInput where
  TxID : String
  OutputIndex : Int
  PublicKey : String
  Signature : String
  deriving DecidableEq

structure TxOutput where
  Value : Int
  Address : String
  deriving DecidableEq

structure Transaction where
  ID : String
  Inputs : List TxInput
  Outputs : List TxOutput
  Timestamp : Int
  Signature : String
  deriving DecidableEq

/-- JSON rendering of one `TxInput`, mirroring Go `encoding/json` field
order and tags (string escaping elided: no claim depends on the marshal
bytes, only on which fields enter the hash). -/
def txInputJson (i : TxInput) : String :=
  "\x7b\"tx_id\":\"" ++ i.TxID ++ "\",\"output_index\":" ++ toString i.OutputIndex ++
  ",\"public_key\":\"" ++ i.PublicKey ++ "\",\"signature\":\"" ++ i.Signature ++ "\"\x7d"

def txOutputJson (o : TxOutput) : String :=
  "\x7b\"value\":" ++ toString o.Value ++ ",\"address\":\"" ++ o.Address ++ "\"\x7d"

def jsonList (f : α → String) (l : List α) : String :=
  "[" ++ String.intercalate "," (l.map f) ++ "]"

/-- Go `json.Marshal` of a `Transaction` value (field order as declared). -/
def txJson (tx : Transaction) : String :=
  "\x7b\"id\":\"" ++ tx.ID ++ "\",\"inputs\":" ++ jsonList txInputJson tx.Inputs ++
  ",\"outputs\":" ++ jsonList txOutputJson tx.Outputs ++
  ",\"timestamp\":" ++ toString tx.Timestamp ++
  ",\"signature\":\"" ++ tx.Signature ++ "\"\x7d"

/-- Go `Transaction.calculateID`: hash of the marshalled copy whose `ID`
field is the zero value `""` (Go builds `txCopy` from the other four
fields). -/
def calculateID (H : String → String) (tx : Transaction) : String :=
  H (txJson { tx with ID := "" })

/-- Go `Transaction.IsCoinbase`: no inputs. -/
def Transaction.IsCoinbase (tx : Transaction) : Bool :=
  tx.Inputs.isEmpty

/-- Go `Transaction.GetTotalOutput`. -/
def Transaction.GetTotalOutput (tx : Transaction) : Int :=
  tx.Outputs.foldl (fun acc o => acc + o.Value) 0

inductive TxErr where
  | invalidID
  | coinbaseOutputCount
  | noInputs
  | noOutputs
  | nonPositiveOutput
  deriving DecidableEq

/-- Go `Transaction.Validate`.  The Go loop reports "output value must be
positive" at the first offending output; as there is a single error kind
this is the same as testing all outputs. -/
def Transaction.Validate (H : String → String) (tx : Transaction) : Except TxErr Unit :=
  if tx.ID ≠ calculateID H tx then .error .invalidID
  else if tx.IsCoinbase then
    (if tx.Outputs.length ≠ 1 then .error .coinbaseOutputCount else .ok ())
  else if tx.Inputs.isEmpty then .error .noInputs
  else if tx.Outputs.isEmpty then .error .noOutputs
  else if ∀ o ∈ tx.Outputs, 0 < o.Value then .ok ()
  else .error .nonPositiveOutput

/-- Go `NewTransaction` (timestamp passed explicitly). -/
def NewTransaction (H : String → String) (inputs : List TxInput) (outputs : List TxOutput)
    (ts : Int) : Transaction :=
  let tx : Transaction := { ID := "", Inputs := inputs, Outputs := outputs,
                            Timestamp := ts, Signature := "" }
  { tx with ID := calculateID H tx }

/-- Go `NewCoinbaseTransaction`. -/
def NewCoinbaseTransaction (H : String → String) (toAddress : String) (reward : Int)
    (ts : Int) : Transaction :=
  let tx : Transaction := { ID := "", Inputs := [],
                            Outputs := [{ Value := reward, Address := toAddress }],
                            Timestamp := ts, Signature := "" }
  { tx with ID := calculateID H tx }

/-! ## Block model -/

structure BlockHeader where
  Version : Int
  PreviousHash : String
  MerkleRoot : String
  Timestamp : Int
  Difficulty : Nat
  Nonce : Nat
  Hash : String
  Height : Int
  deriving DecidableEq

structure Block where
  Header : BlockHeader
  Transactions : List Transaction
  deriving DecidableEq

/-- The `fmt.Sprintf("%d%s%s%d%d%d%d", ...)` header serialization fed to
SHA-256 — every header field except `Hash` itself. -/
def headerData (h : BlockHeader) : String :=
  toString h.Version ++ h.PreviousHash ++ h.MerkleRoot ++ toString h.Timestamp ++
  toString h.Difficulty ++ toString h.Nonce ++ toString h.Height

/-- Go `Block.calculateHash` (a function of the header only). -/
def calculateHash (H : String → String) (h : BlockHeader) : String :=
  H (headerData h)

/-- One level of `Block.buildMerkleTree`'s pairing loop (`i += 2`;
adjacent pair concatenated and hashed; a final unpaired element is
concatenated with itself). -/
def pairLevel (H : String → String) : List String → List String
  | [] => []
  | [x] => [H (x ++ x)]
  | x :: y :: rest => H (x ++ y) :: pairLevel H rest

theorem pairLevel_length (H : String → String) :
    ∀ l : List String, (pairLevel H l).length = (l.length + 1) / 2
  | [] => by simp [pairLevel]
  | [x] => by simp [pairLevel]
  | x :: y :: rest => by
      have ih := pairLevel_length H rest
      simp [pairLevel, ih]
      omega

/-- Go `Block.buildMerkleTree` with an explicit recursion bound, so that
the definition reduces inside the kernel.  Each level at least halves a
list of length ≥ 2, so `l.length` steps always suffice; the third arm is
unreachable for sufficient fuel (`buildMerkleTreeFuel_congr` below shows
the bound never binds). -/
def buildMerkleTreeFuel (H : String → String) : Nat → List String → String
  | _, [] => ""
  | _, [x] => x
  | 0, x :: _ :: _ => x
  | fuel + 1, x :: y :: rest => buildMerkleTreeFuel H fuel (pairLevel H (x :: y :: rest))

theorem buildMerkleTreeFuel_congr (H : String → String) :
    ∀ (n : Nat) (m : Nat) (l : List String), l.length ≤ n + 1 → l.length ≤ m + 1 →
      buildMerkleTreeFuel H n l = buildMerkleTreeFuel H m l := by
  intro n
  induction n with
  | zero =>
    intro m l hn _
    match l with
    | [] => cases m <;> rfl
    | [x] => cases m <;> rfl
    | x :: y :: rest => simp at hn
  | succ k ih =>
    intro m l hn hm
    match l with
    | [] => cases m <;> rfl
    | [x] => cases m <;> rfl
    | x :: y :: rest =>
      match m with
      | 0 => simp at hm
      | m' + 1 =>
        show buildMerkleTreeFuel H k (pairLevel H (x :: y :: rest)) =
          buildMerkleTreeFuel H m' (pairLevel H (x :: y :: rest))
        have hlen := pairLevel_length H (x :: y :: rest)
        apply ih
        · rw [hlen]; simp at hn ⊢; omega
        · rw [hlen]; simp at hm ⊢; omega

/-- Go `Block.buildMerkleTree`. -/
def buildMerkleTree (H : String → String) (l : List String) : String :=
  buildMerkleTreeFuel H l.length l

theorem buildMerkleTree_pair (H : String → String) (x y : String) (rest : List String) :
    buildMerkleTree H (x :: y :: rest) = buildMerkleTree H (pairLevel H (x :: y :: rest)) := by
  show buildMerkleTreeFuel H (rest.length + 1) (pairLevel H (x :: y :: rest)) =
    buildMerkleTreeFuel H (pairLevel H (x :: y :: rest)).length (pairLevel H (x :: y :: rest))
  have hlen := pairLevel_length H (x :: y :: rest)
  apply buildMerkleTreeFuel_congr
  · rw [hlen]; simp; omega
  · omega

/-- Go `Block.calculateMerkleRoot`. -/
def calculateMerkleRoot (H : String → String) (b : Block) : String :=
  if b.Transactions.isEmpty then ""
  else buildMerkleTree H (b.Transactions.map (fun t => t.ID))

/-- Go `NewBlock` (timestamp passed explicitly; difficulty, nonce and hash
start at their zero values, merkle root computed immediately). -/
def NewBlock (H : String → String) (transactions : List Transaction)
    (previousHash : String) (height : Int) (ts : Int) : Block :=
  let b : Block :=
    { Header := { Version := 1, PreviousHash := previousHash, MerkleRoot := "",
                  Timestamp := ts, Difficulty := 0, Nonce := 0, Hash := "",
                  Height := height },
      Transactions := transactions }
  { b with Header := { b.Header with MerkleRoot := calculateMerkleRoot H b } }

/-! ## Mining -/

/-- Go `getTarget`: the string of `difficulty` zero characters. -/
def getTarget (difficulty : Nat) : String :=
  String.mk (List.replicate difficulty '0')

/-- Go `hash[:len(target)]` as a total function (characters of these
hash strings are ASCII hex digits, so byte slicing is character
slicing). -/
def strTake (s : String) (n : Nat) : String :=
  String.mk (s.toList.take n)

/-- Go `isHashValid`, made total: `none` models the out-of-range slice
panic Go raises when `len(target) > len(hash)`. -/
def isHashValidChecked (hash target : String) : Option Bool :=
  if target.length ≤ hash.length then some (strTake hash target.length = target)
  else none

inductive MineOutcome where
  | found (b : Block)
  | fuelOut (b : Block)
  | panicked
  deriving DecidableEq

def bumpNonce (b : Block) : Block :=
  { b with Header := { b.Header with Nonce := (b.Header.Nonce + 1) % 18446744073709551616 } }

def setHash (b : Block) (h : String) : Block :=
  { b with Header := { b.Header with Hash := h } }

/-- The body of `Block.Mine`'s `for` loop, with explicit fuel.
`fuelOut` never arises in Go (the loop is unbounded); `panicked` models
the slice panic inside `isHashValid`. -/
def mineLoop (H : String → String) (target : String) : Nat → Block → MineOutcome
  | 0, b => .fuelOut b
  | fuel + 1, b =>
    let b' := bumpNonce b
    let hash := calculateHash H b'.Header
    match isHashValidChecked hash target with
    | none => .panicked
    | some true => .found (setHash b' hash)
    | some false => mineLoop H target fuel b'

/-- Go `Block.Mine`: store the difficulty, then search nonces. -/
def Block.Mine (H : String → String) (difficulty : Nat) (fuel : Nat) (b : Block) : MineOutcome :=
  mineLoop H (getTarget difficulty) fuel
    { b with Header := { b.Header with Difficulty := difficulty } }

/-! ## Block validation -/

inductive BlockErr where
  | hashMismatch
  | chainLinkage
  | merkleMismatch
  | emptyBlock
  | missingCoinbase
  | txInvalid (e : TxErr)
  | multipleCoinbase
  deriving DecidableEq

/-- Whether the first transaction is a coinbase (`b.Transactions[0]`,
only reached after the non-emptiness check). -/
def headIsCoinbase : List Transaction → Bool
  | [] => false
  | tx :: _ => tx.IsCoinbase

/-- Number of coinbase transactions in a list. -/
def countCoinbase : List Transaction → Nat
  | [] => 0
  | tx :: rest => (if tx.IsCoinbase then 1 else 0) + countCoinbase rest

/-- Go `Block.Validate`'s final `for` loop: counts coinbases and validates
each transaction in one pass, returning the error of the first invalid
transaction. -/
def validateTxs (H : String → String) : List Transaction → Nat → Except BlockErr Nat
  | [], cnt => .ok cnt
  | tx :: rest, cnt =>
    let cnt' := if tx.IsCoinbase then cnt + 1 else cnt
    match Transaction.Validate H tx with
    | .error e => .error (.txInvalid e)
    | .ok _ => validateTxs H rest cnt'

/-- Go `Block.Validate` after the predecessor checks (merkle root,
non-emptiness, coinbase-first, then the combined loop and the final
count test). -/
def validateRest (H : String → String) (b : Block) : Except BlockErr Unit :=
  if b.Header.MerkleRoot ≠ calculateMerkleRoot H b then .error .merkleMismatch
  else if b.Transactions = [] then .error .emptyBlock
  else if headIsCoinbase b.Transactions = false then .error .missingCoinbase
  else
    match validateTxs H b.Transactions 0 with
    | .error e => .error e
    | .ok cnt => if cnt ≠ 1 then .error .multipleCoinbase else .ok ()

/-- Go `Block.Validate`.  Both predecessor failures ("invalid previous
hash", "invalid block height") are the spec's single `ChainLinkageError`
kind. -/
def Block.Validate (H : String → String) (prev : Option Block) (b : Block) :
    Except BlockErr Unit :=
  if b.Header.Hash ≠ calculateHash H b.Header then .error .hashMismatch
  else
    match prev with
    | some p =>
      if b.Header.PreviousHash ≠ p.Header.Hash then .error .chainLinkage
      else if b.Header.Height ≠ p.Header.Height + 1 then .error .chainLinkage
      else validateRest H b
    | none => validateRest H b

/-! ## Chain state -/

/-- The `map[string][]TxOutput` UTXO set, as an association list with
unique keys and insertion order; the Go code never iterates the map, so
only lookup / replace / delete are needed. -/
abbrev UTXOSet := List (String × List TxOutput)

def utxoLookup : UTXOSet → String → Option (List TxOutput)
  | [], _ => none
  | (k, v) :: rest, key => if k = key then some v else utxoLookup rest key

/-- Map store: replaces the value under an existing key, else inserts. -/
def utxoStore : UTXOSet → String → List TxOutput → UTXOSet
  | [], key, v => [(key, v)]
  | (k, w) :: rest, key, v =>
    if k = key then (k, v) :: rest else (k, w) :: utxoStore rest key v

/-- Map delete. -/
def utxoDelete : UTXOSet → String → UTXOSet
  | [], _ => []
  | (k, w) :: rest, key =>
    if k = key then rest else (k, w) :: utxoDelete rest key

structure Chain where
  blocks : List Block
  difficulty : Nat
  utxo : UTXOSet
  deriving DecidableEq

/-- One input's effect in `updateUTXOSet`: if the spender's bucket
exists and is non-empty, drop its first entry (`outputs[1:]`), deleting
the key when the remainder is empty. -/
def spendInput (m : UTXOSet) (inp : TxInput) : UTXOSet :=
  match utxoLookup m inp.PublicKey with
  | none => m
  | some outputs =>
    match outputs with
    | [] => m
    | _ :: rest =>
      if rest = [] then utxoDelete m inp.PublicKey
      else utxoStore m inp.PublicKey rest

/-- One output's effect in `updateUTXOSet`:
`bc.utxoSet[output.Address] = append(bc.utxoSet[output.Address], output)`
(a missing key behaves as the empty bucket). -/
def addOutput (m : UTXOSet) (o : TxOutput) : UTXOSet :=
  utxoStore m o.Address ((utxoLookup m o.Address).getD [] ++ [o])

/-- One transaction's effect in `updateUTXOSet`: inputs are spent only
for non-coinbase transactions, then every output is appended. -/
def applyTx (m : UTXOSet) (tx : Transaction) : UTXOSet :=
  let m1 := if tx.IsCoinbase then m else tx.Inputs.foldl spendInput m
  tx.Outputs.foldl addOutput m1

/-- Go `Blockchain.updateUTXOSet`. -/
def updateUTXOSet (m : UTXOSet) (b : Block) : UTXOSet :=
  b.Transactions.foldl applyTx m

/-- Timestamp delta between the two most recent blocks
(`blocks[len-1].Timestamp - blocks[len-2].Timestamp`); only used when
the chain has at least two blocks. -/
def lastTwoTimeDiff (c : Chain) : Int :=
  match c.blocks.getLast?, c.blocks.dropLast.getLast? with
  | some l, some p => l.Header.Timestamp - p.Header.Timestamp
  | _, _ => 0

/-- Go `Blockchain.adjustDifficulty`.  `bc.difficulty++` is a Go `uint32`
increment, hence performed modulo 2^32. -/
def adjustDifficulty (c : Chain) : Chain :=
  if c.blocks.length < 2 then c
  else if lastTwoTimeDiff c < 30 then { c with difficulty := (c.difficulty + 1) % 4294967296 }
  else if 60 < lastTwoTimeDiff c ∧ 1 < c.difficulty then { c with difficulty := c.difficulty - 1 }
  else c

/-- Go `Blockchain.isValidInput`. -/
def isValidInput (c : Chain) (input : TxInput) : Bool :=
  true

/-- Go `Blockchain.validateTransactions`' loop over the non-coinbase-slot
transactions (every transaction except index 0); returns the Go error
message of the first transaction containing an invalid input. -/
def validateTxInputs (c : Chain) : List Transaction → Except String Unit
  | [] => .ok ()
  | tx :: rest =>
    if tx.Inputs.all (fun i => isValidInput c i) then validateTxInputs c rest
    else .error ("invalid input in transaction " ++ tx.ID)

/-- Go `Blockchain.validateTransactions` (index 0 is skipped). -/
def validateTransactions (c : Chain) (b : Block) : Except String Unit :=
  match b.Transactions with
  | [] => .ok ()
  | _ :: rest => validateTxInputs c rest

inductive AddErr where
  | blockInvalid (e : BlockErr)
  | inputInvalid (msg : String)
  deriving DecidableEq

/-- Go `Blockchain.AddBlock`.  The outer `Option` is `none` when the call
does not return normally: the empty-chain index panic, the mining loop
exceeding `fuel` (in Go it simply has not returned yet), or the mining
slice panic.  A `some (res, c')` is a normal return with error status
`res` and post-call chain state `c'`. -/
def addBlock (H : String → String) (c : Chain) (transactions : List Transaction)
    (ts : Int) (fuel : Nat) : Option (Option AddErr × Chain) :=
  match c.blocks.getLast? with
  | none => none
  | some lastBlock =>
    let nb0 := NewBlock H transactions lastBlock.Header.Hash (lastBlock.Header.Height + 1) ts
    match Block.Mine H c.difficulty fuel nb0 with
    | .found newBlock =>
      match Block.Validate H (some lastBlock) newBlock with
      | .error e => some (some (.blockInvalid e), c)
      | .ok _ =>
        match validateTransactions c newBlock with
        | .error msg => some (some (.inputInvalid msg), c)
        | .ok _ =>
          let c1 : Chain := { blocks := c.blocks ++ [newBlock],
                              difficulty := c.difficulty,
                              utxo := updateUTXOSet c.utxo newBlock }
          let c2 := if newBlock.Header.Height % 10 = 0 then adjustDifficulty c1 else c1
          some (none, c2)
    | _ => none

/-- Go `Blockchain.ValidateChain`'s loop from index 1, carrying the index
for the reported failure position. -/
def validateChainAux (H : String → String) (prev : Block) :
    List Block → Nat → Except (Nat × BlockErr) Unit
  | [], _ => .ok ()
  | b :: rest, idx =>
    match Block.Validate H (some prev) b with
    | .error e => .error (idx, e)
    | .ok _ => validateChainAux H b rest (idx + 1)

/-- Go `Blockchain.ValidateChain`: pairwise validation, failure reported
with its block index. -/
def validateChain (H : String → String) (blocks : List Block) : Except (Nat × BlockErr) Unit :=
  match blocks with
  | [] => .ok ()
  | b :: rest => validateChainAux H b rest 1

/-- Go `Blockchain.FindUTXO` (the defensive copy is identity here). -/
def FindUTXO (c : Chain) (address : String) : List TxOutput :=
  (utxoLookup c.utxo address).getD []

/-- Go `Blockchain.GetBalance`. -/
def GetBalance (c : Chain) (address : String) : Int :=
  (FindUTXO c address).foldl (fun acc o => acc + o.Value) 0

/-- Reduction of an unbounded integer to the two's-complement `int64`
range, the semantics of overflowing Go `int64` arithmetic. -/
def wrap64 (x : Int) : Int :=
  (x + 9223372036854775808) % 18446744073709551616 - 9223372036854775808

/-- Go `Blockchain.CreateTransaction`'s greedy accumulation loop: stop as
soon as the running total covers `amount`, otherwise consume the next
indexed output (the constructed input carries empty `TxID`, index 0 and
the spender's key).  `totalInput += utxo.Value` is Go `int64` addition,
which wraps. -/
def gatherInputs (fromAddr : String) (amount : Int) :
    List TxOutput → Int → List TxInput → Int × List TxInput
  | [], total, inputs => (total, inputs)
  | utxo :: rest, total, inputs =>
    if amount ≤ total then (total, inputs)
    else gatherInputs fromAddr amount rest (wrap64 (total + utxo.Value))
        (inputs ++ [{ TxID := "", OutputIndex := 0, PublicKey := fromAddr, Signature := "" }])

inductive CtErr where
  | insufficientFunds
  deriving DecidableEq

/-- Go `Blockchain.CreateTransaction`.  The second component of the result
is the chain state at return: the Go method only reads under a shared
lock, so it is always the input state.  The change
`totalInput - amount` is Go `int64` subtraction, which wraps. -/
def CreateTransaction (H : String → String) (c : Chain) (fromAddr toAddr : String)
    (amount : Int) (ts : Int) : Except CtErr Transaction × Chain :=
  let utxos := FindUTXO c fromAddr
  let gathered := gatherInputs fromAddr amount utxos 0 []
  if gathered.1 < amount then (.error .insufficientFunds, c)
  else
    let outputs :=
      { Value := amount, Address := toAddr } ::
        (if amount < gathered.1
         then [{ Value := wrap64 (gathered.1 - amount), Address := fromAddr : TxOutput }]
         else [])
    (.ok (NewTransaction H gathered.2 outputs ts), c)

/-! ## Specification-side description of block validation

`validateSpec` is written from the specification's words for the claim
about `Block.Validate`: the seven checks in the stated order, each with
its stated error kind, where the transaction-validity pass propagates
the failure of the first invalid transaction. -/

/-- The failure of the first transaction that does not pass
`Transaction.Validate`, if any. -/
def firstTxError (H : String → String) : List Transaction → Option TxErr
  | [] => none
  | tx :: rest =>
    match Transaction.Validate H tx with
    | .error e => some e
    | .ok _ => firstTxError H rest

/-- Predecessor linkage as the spec states it: when a predecessor is
supplied, its hash is the block's `previous_hash` and its height + 1 is
the block's height. -/
def linkageOk (prev : Option Block) (b : Block) : Bool :=
  match prev with
  | none => true
  | some p => b.Header.PreviousHash == p.Header.Hash && b.Header.Height == p.Header.Height + 1

/-- Modelled from the spec's sentence for `validate`: the checks and
error kinds in their stated order. -/
def validateSpec (H : String → String) (prev : Option Block) (b : Block) :
    Except BlockErr Unit :=
  if b.Header.Hash ≠ calculateHash H b.Header then .error .hashMismatch
  else if linkageOk prev b = false then .error .chainLinkage
  else if b.Header.MerkleRoot ≠ calculateMerkleRoot H b then .error .merkleMismatch
  else if b.Transactions = [] then .error .emptyBlock
  else if headIsCoinbase b.Transactions = false then .error .missingCoinbase
  else
    match firstTxError H b.Transactions with
    | some e => .error (.txInvalid e)
    | none =>
      if countCoinbase b.Transactions ≠ 1 then .error .multipleCoinbase else .ok ()

theorem validateTxs_spec (H : String → String) :
    ∀ (txs : List Transaction) (cnt : Nat),
      validateTxs H txs cnt =
        (match firstTxError H txs with
         | some e => Except.error (BlockErr.txInvalid e)
         | none => Except.ok (cnt + countCoinbase txs)) := by
  intro txs
  induction txs with
  | nil => intro cnt; simp [validateTxs, firstTxError, countCoinbase]
  | cons tx rest ih =>
    intro cnt
    simp only [validateTxs, firstTxError, countCoinbase]
    cases h : Transaction.Validate H tx with
    | error e => rfl
    | ok _ =>
      rw [ih]
      cases hfe : firstTxError H rest with
      | some e => rfl
      | none =>
        simp only []
        cases hcb : tx.IsCoinbase <;> simp <;> omega

theorem firstTxError_none_iff (H : String → String) (txs : List Transaction) :
    firstTxError H txs = none ↔ ∀ tx ∈ txs, Transaction.Validate H tx = .ok () := by
  induction txs with
  | nil => simp [firstTxError]
  | cons tx rest ih =>
    simp only [firstTxError]
    cases h : Transaction.Validate H tx with
    | error e => simp [h]
    | ok u =>
      cases u
      simp [h, ih]

/-- Go `Block.Validate` and the spec-side description agree everywhere. -/
theorem validate_eq_spec (H : String → String) (prev : Option Block) (b : Block) :
    Block.Validate H prev b = validateSpec H prev b := by
  unfold Block.Validate validateSpec
  have hrest : validateRest H b =
      (if b.Header.MerkleRoot ≠ calculateMerkleRoot H b then .error .merkleMismatch
       else if b.Transactions = [] then .error .emptyBlock
       else if headIsCoinbase b.Transactions = false then .error .missingCoinbase
       else
         match firstTxError H b.Transactions with
         | some e => .error (.txInvalid e)
         | none =>
           if countCoinbase b.Transactions ≠ 1 then .error .multipleCoinbase
           else .ok ()) := by
    unfold validateRest
    rw [validateTxs_spec]
    cases hfe : firstTxError H b.Transactions with
    | some e => simp
    | none => simp
  cases prev with
  | none => simp [linkageOk, hrest]
  | some p =>
    by_cases h1 : b.Header.Hash = calculateHash H b.Header
    · by_cases h2 : b.Header.PreviousHash = p.Header.Hash
      · by_cases h3 : b.Header.Height = p.Header.Height + 1
        · simp [h1, h2, h3, linkageOk, hrest]
        · simp [h1, h2, h3, linkageOk]
      · simp [h1, h2, linkageOk]
    · simp [h1]

/-- Success characterization of `Block.Validate`: it succeeds exactly
when every one of the seven stated conditions holds. -/
theorem validate_ok_iff (H : String → String) (prev : Option Block) (b : Block) :
    Block.Validate H prev b = .ok () ↔
      (b.Header.Hash = calculateHash H b.Header ∧
       (∀ p, prev = some p →
          b.Header.PreviousHash = p.Header.Hash ∧ b.Header.Height = p.Header.Height + 1) ∧
       b.Header.MerkleRoot = calculateMerkleRoot H b ∧
       b.Transactions ≠ [] ∧
       headIsCoinbase b.Transactions = true ∧
       (∀ tx ∈ b.Transactions, Transaction.Validate H tx = .ok ()) ∧
       countCoinbase b.Transactions = 1) := by
  rw [validate_eq_spec]
  unfold validateSpec
  by_cases h1 : b.Header.Hash = calculateHash H b.Header
  · by_cases h2 : linkageOk prev b = true
    · by_cases h3 : b.Header.MerkleRoot = calculateMerkleRoot H b
      · by_cases h4 : b.Transactions = []
        · simp [h1, h2, h3, h4]
        · by_cases h5 : headIsCoinbase b.Transactions = true
          · cases hfe : firstTxError H b.Transactions with
            | some e =>
              have : ¬ ∀ tx ∈ b.Transactions, Transaction.Validate H tx = .ok () := by
                intro hall
                rw [← firstTxError_none_iff H b.Transactions] at hall
                rw [hall] at hfe
                exact Option.noConfusion hfe
              simp [h1, h2, h3, h4, h5, hfe, this]
            | none =>
              have hall := (firstTxError_none_iff H b.Transactions).mp hfe
              by_cases h7 : countCoinbase b.Transactions = 1
              · have hlk : ∀ p, prev = some p →
                    b.Header.PreviousHash = p.Header.Hash ∧
                    b.Header.Height = p.Header.Height + 1 := by
                  intro p hp
                  subst hp
                  simp only [linkageOk, Bool.and_eq_true, beq_iff_eq] at h2
                  exact h2
                simp only [h1, h2, h3, h4, h5, hfe, h7]
                simp [h1, h3, h4, h5, h7]
                exact ⟨hlk, hall⟩
              · simp [h1, h2, h3, h4, h5, hfe, h7]
          · simp only [Bool.not_eq_true] at h5
            simp [h1, h2, h3, h4, h5]
      · simp [h1, h2, h3]
    · simp only [Bool.not_eq_true] at h2
      have : ¬ ∀ p, prev = some p →
          b.Header.PreviousHash = p.Header.Hash ∧ b.Header.Height = p.Header.Height + 1 := by
        intro hall
        cases prev with
        | none => simp [linkageOk] at h2
        | some p =>
          have := hall p rfl
          simp [linkageOk, this.1, this.2] at h2
      simp [h1, h2, this]
  · simp [h1]

/-- Claim C1: `Block.Validate` succeeds iff the seven stated conditions
hold, and equals, check for check and error kind for error kind in the
stated order, the spec-side `validateSpec`. -/
theorem block_validate_matches_spec (H : String → String) (prev : Option Block) (b : Block) :
    Block.Validate H prev b = validateSpec H prev b ∧
      (Block.Validate H prev b = .ok () ↔
        (b.Header.Hash = calculateHash H b.Header ∧
         (∀ p, prev = some p →
            b.Header.PreviousHash = p.Header.Hash ∧ b.Header.Height = p.Header.Height + 1) ∧
         b.Header.MerkleRoot = calculateMerkleRoot H b ∧
         b.Transactions ≠ [] ∧
         headIsCoinbase b.Transactions = true ∧
         (∀ tx ∈ b.Transactions, Transaction.Validate H tx = .ok ()) ∧
         countCoinbase b.Transactions = 1)) :=
  ⟨validate_eq_spec H prev b, validate_ok_iff H prev b⟩

/-- Claim C6: the merkle computation — empty sentinel, single leaf
unchanged, and otherwise one left-to-right pairing level (concatenated
pairs hashed, a final unpaired leaf concatenated with itself) followed
by recursion; `calculateMerkleRoot` is its application to the
transaction id sequence. -/
theorem merkle_root_computation (H : String → String) :
    buildMerkleTree H [] = "" ∧
    (∀ x, buildMerkleTree H [x] = x) ∧
    (∀ x y rest, buildMerkleTree H (x :: y :: rest) =
        buildMerkleTree H (pairLevel H (x :: y :: rest))) ∧
    (∀ x, pairLevel H [x] = [H (x ++ x)]) ∧
    (∀ x y rest, pairLevel H (x :: y :: rest) = H (x ++ y) :: pairLevel H rest) ∧
    (∀ b : Block, calculateMerkleRoot H b =
        buildMerkleTree H (b.Transactions.map (fun t => t.ID))) := by
  refine ⟨rfl, fun x => rfl, buildMerkleTree_pair H, fun x => rfl, fun x y rest => rfl,
    fun b => ?_⟩
  unfold calculateMerkleRoot
  cases h : b.Transactions with
  | nil => simp [h]; rfl
  | cons tx rest => simp [h]

/-! ## Concrete instances used by the witnesses and counterexamples

`hzero` is a legitimate instantiation of the hash parameter: a constant
function returning a 64-hex-character string, so every hash comparison in
the code is exercised with well-typed values. -/

def zeros64 : String :=
  String.mk (List.replicate 64 '0')

def hzero : String → String :=
  fun _ => zeros64

deriving instance DecidableEq for Except

theorem hzero_length : ∀ s, (hzero s).length = 64 := by
  intro s
  show zeros64.length = 64
  decide

/-- A coinbase transaction (no inputs, one output) whose stored id is
its recomputed id under `hzero`, but whose single output has value 0. -/
def cbZeroValue : Transaction :=
  { ID := zeros64, Inputs := [],
    Outputs := [{ Value := 0, Address := "miner" }], Timestamp := 0, Signature := "" }

/-- Counterexample to claim C5 as stated: a coinbase transaction with a
matching id and a non-positive (zero) output value nevertheless passes
`Transaction.Validate`, because the positive-value loop is only reached
on the non-coinbase path. -/
theorem coinbase_nonpositive_output_accepted_cex :
    cbZeroValue.ID = calculateID hzero cbZeroValue ∧
    cbZeroValue.IsCoinbase = true ∧
    (∃ o ∈ cbZeroValue.Outputs, o.Value ≤ 0) ∧
    Transaction.Validate hzero cbZeroValue = .ok () := by
  refine ⟨by decide, by decide, ⟨{ Value := 0, Address := "miner" }, by decide, by decide⟩, by decide⟩

/-- Claim C5 (amended to non-coinbase transactions): a non-coinbase
transaction whose stored id matches its recomputed id and which has any
output of non-positive value fails validation, with the
non-positive-output error. -/
theorem nonpositive_output_rejected (H : String → String) (tx : Transaction)
    (hnc : tx.Inputs ≠ []) (hid : tx.ID = calculateID H tx)
    (hbad : ∃ o ∈ tx.Outputs, o.Value ≤ 0) :
    Transaction.Validate H tx = .error .nonPositiveOutput := by
  obtain ⟨o, ho, hov⟩ := hbad
  have hone : tx.Outputs ≠ [] := by
    intro h
    rw [h] at ho
    exact absurd ho (List.not_mem_nil o)
  have hcb : tx.IsCoinbase = false := by
    unfold Transaction.IsCoinbase
    simpa [List.isEmpty_iff] using hnc
  have hnall : ¬ ∀ o ∈ tx.Outputs, 0 < o.Value := by
    intro hall
    exact absurd (hall o ho) (by omega)
  unfold Transaction.Validate
  simp [hid, hcb, Transaction.IsCoinbase, List.isEmpty_iff, hnc, hone, hnall]

def txNegOutput : Transaction :=
  { ID := zeros64,
    Inputs := [{ TxID := "", OutputIndex := 0, PublicKey := "alice", Signature := "" }],
    Outputs := [{ Value := -5, Address := "bob" }], Timestamp := 0, Signature := "" }

theorem nonpositive_output_rejected_witness :
    txNegOutput.Inputs ≠ [] ∧ txNegOutput.ID = calculateID hzero txNegOutput ∧
    Transaction.Validate hzero txNegOutput = .error .nonPositiveOutput :=
  ⟨by decide, by decide,
    nonpositive_output_rejected hzero txNegOutput (by decide) (by decide)
      ⟨{ Value := -5, Address := "bob" }, by decide, by decide⟩⟩

/-! ## The input-validity check (claim C9) -/

theorem validateTxInputs_ok (c : Chain) :
    ∀ txs : List Transaction, validateTxInputs c txs = .ok () := by
  intro txs
  induction txs with
  | nil => rfl
  | cons tx rest ih => simp [validateTxInputs, isValidInput, ih]

theorem validateTransactions_ok (c : Chain) (b : Block) :
    validateTransactions c b = .ok () := by
  unfold validateTransactions
  cases b.Transactions with
  | nil => rfl
  | cons tx rest => exact validateTxInputs_ok c rest

/-- Claim C9: the per-input structural check accepts every input, the
transaction-input validation pass therefore always succeeds, and a
normally returning `addBlock` call either succeeds or fails with a
block-validation error — never with an input error. -/
theorem input_check_unconditional :
    (∀ (c : Chain) (i : TxInput), isValidInput c i = true) ∧
    (∀ (c : Chain) (b : Block), validateTransactions c b = .ok ()) ∧
    (∀ (H : String → String) (c : Chain) (txs : List Transaction) (ts : Int) (fuel : Nat)
       (r : Option AddErr) (c' : Chain),
       addBlock H c txs ts fuel = some (r, c') →
       r = none ∨ ∃ e, r = some (AddErr.blockInvalid e)) := by
  refine ⟨fun c i => rfl, validateTransactions_ok, ?_⟩
  intro H c txs ts fuel r c' h
  simp only [addBlock] at h
  split at h
  · exact absurd h (by simp)
  · split at h
    · rename_i lastBlock _ newBlock _
      split at h
      · rename_i e _
        rw [Option.some_inj, Prod.mk.injEq] at h
        exact Or.inr ⟨e, h.1.symm⟩
      · rw [validateTransactions_ok] at h
        simp only [] at h
        rw [Option.some_inj, Prod.mk.injEq] at h
        exact Or.inl h.1.symm
    · exact absurd h (by simp)

/-- A concrete well-formed tip block under `hzero`. -/
def gW : Block :=
  { Header := { Version := 1, PreviousHash := zeros64, MerkleRoot := zeros64,
                Timestamp := 0, Difficulty := 1, Nonce := 0, Hash := zeros64, Height := 0 },
    Transactions := [cbZeroValue] }

def chainW : Chain :=
  { blocks := [gW], difficulty := 1, utxo := [] }

theorem input_check_unconditional_witness :
    (some (AddErr.blockInvalid BlockErr.emptyBlock) : Option AddErr) = none ∨
      ∃ e, (some (AddErr.blockInvalid BlockErr.emptyBlock) : Option AddErr) =
        some (AddErr.blockInvalid e) :=
  input_check_unconditional.2.2 hzero chainW [] 0 1
    (some (AddErr.blockInvalid BlockErr.emptyBlock)) chainW (by decide)

/-! ## Atomicity of `AddBlock` (claim C2) -/

theorem adjustDifficulty_blocks (c : Chain) : (adjustDifficulty c).blocks = c.blocks := by
  unfold adjustDifficulty
  split_ifs <;> rfl

theorem adjustDifficulty_utxo (c : Chain) : (adjustDifficulty c).utxo = c.utxo := by
  unfold adjustDifficulty
  split_ifs <;> rfl

/-- Claim C2: a normally returning `addBlock` call that reports an error
leaves the chain state (blocks, difficulty and UTXO index) exactly as it
was; a successful call appends the mined block, applies the UTXO update,
and recomputes the difficulty exactly when the new height is a multiple
of 10 — all in the same call. -/
theorem addBlock_atomicity (H : String → String) (c : Chain) (txs : List Transaction)
    (ts : Int) (fuel : Nat) (r : Option AddErr) (c' : Chain)
    (h : addBlock H c txs ts fuel = some (r, c')) :
    (∀ e, r = some e → c' = c) ∧
    (r = none → ∃ nb,
      c'.blocks = c.blocks ++ [nb] ∧
      c'.utxo = updateUTXOSet c.utxo nb ∧
      (nb.Header.Height % 10 ≠ 0 → c'.difficulty = c.difficulty) ∧
      (nb.Header.Height % 10 = 0 →
        c'.difficulty = (adjustDifficulty
          { blocks := c.blocks ++ [nb], difficulty := c.difficulty,
            utxo := updateUTXOSet c.utxo nb }).difficulty)) := by
  simp only [addBlock] at h
  split at h
  · exact absurd h (by simp)
  · split at h
    · rename_i lastBlock _ newBlock _
      split at h
      · rename_i e _
        rw [Option.some_inj, Prod.mk.injEq] at h
        constructor
        · intro e' _
          exact h.2.symm
        · intro hr
          rw [← h.1] at hr
          exact absurd hr (by simp)
      · rw [validateTransactions_ok] at h
        simp only [] at h
        rw [Option.some_inj, Prod.mk.injEq] at h
        constructor
        · intro e' he'
          rw [← h.1] at he'
          exact absurd he' (by simp)
        · intro _
          refine ⟨newBlock, ?_⟩
          by_cases hten : newBlock.Header.Height % 10 = 0
          · rw [← h.2, if_pos hten]
            exact ⟨adjustDifficulty_blocks _, adjustDifficulty_utxo _,
              fun hc => absurd hten hc, fun _ => rfl⟩
          · rw [← h.2, if_neg hten]
            exact ⟨rfl, rfl, fun _ => rfl, fun hc => absurd hc hten⟩
    · exact absurd h (by simp)

theorem addBlock_atomicity_witness :
    addBlock hzero chainW [] 0 1 =
      some (some (AddErr.blockInvalid BlockErr.emptyBlock), chainW) ∧ chainW = chainW :=
  ⟨by decide,
    (addBlock_atomicity hzero chainW [] 0 1
        (some (AddErr.blockInvalid BlockErr.emptyBlock)) chainW (by decide)).1
      (AddErr.blockInvalid BlockErr.emptyBlock) rfl⟩

/-! ## Difficulty adjustment (claim C4) -/

/-- Success shape of `addBlock`, shared by several results below. -/
theorem addBlock_success_eq (H : String → String) (c : Chain) (txs : List Transaction)
    (ts : Int) (fuel : Nat) (c' : Chain)
    (h : addBlock H c txs ts fuel = some (none, c')) :
    ∃ nb, c' =
      (if nb.Header.Height % 10 = 0
       then adjustDifficulty { blocks := c.blocks ++ [nb], difficulty := c.difficulty,
                               utxo := updateUTXOSet c.utxo nb }
       else { blocks := c.blocks ++ [nb], difficulty := c.difficulty,
              utxo := updateUTXOSet c.utxo nb }) := by
  simp only [addBlock] at h
  split at h
  · exact absurd h (by simp)
  · split at h
    · rename_i lastBlock _ newBlock _
      split at h
      · exact absurd h (by simp)
      · rw [validateTransactions_ok] at h
        simp only [] at h
        rw [Option.some_inj, Prod.mk.injEq] at h
        exact ⟨newBlock, h.2.symm⟩
    · exact absurd h (by simp)

/-- A block determined only by its timestamp, used in concrete
difficulty-adjustment states. -/
def blkTs (ts : Int) : Block :=
  { Header := { Version := 1, PreviousHash := "", MerkleRoot := "", Timestamp := ts,
                Difficulty := 0, Nonce := 0, Hash := "", Height := 0 },
    Transactions := [] }

def chainMaxDiff : Chain :=
  { blocks := [blkTs 0, blkTs 10], difficulty := 4294967295, utxo := [] }

/-- Counterexample to claim C4 as stated: on a chain whose last two
timestamps are 10 apart (delta strictly under 30) but whose difficulty
is the maximal `uint32` value 4294967295, the adjustment does not
increase the difficulty by exactly 1 — the unsigned increment wraps the
difficulty to 0. -/
theorem difficulty_increment_wraps_cex :
    lastTwoTimeDiff chainMaxDiff = 10 ∧ (10 : Int) < 30 ∧
    (adjustDifficulty chainMaxDiff).difficulty = 0 ∧
    (adjustDifficulty chainMaxDiff).difficulty ≠ chainMaxDiff.difficulty + 1 := by
  refine ⟨by decide, by decide, ?_, ?_⟩ <;> norm_num [adjustDifficulty, chainMaxDiff, lastTwoTimeDiff, blkTs]

/-- Claim C4 (amended for the `uint32` wrap): difficulty adjustment runs
only when the appended height is a multiple of 10 and examines only the
last two blocks' timestamp delta; delta strictly under 30 increments the
difficulty by 1 — except that from 4294967295 the unsigned increment
wraps to 0 —, delta strictly over 60 with difficulty above 1 decrements
it by 1, and every other case leaves it unchanged. -/
theorem difficulty_adjustment_policy :
    (∀ (H : String → String) (c : Chain) (txs : List Transaction) (ts : Int) (fuel : Nat)
       (c' : Chain) (nb : Block),
       addBlock H c txs ts fuel = some (none, c') →
       c'.blocks = c.blocks ++ [nb] →
       ((nb.Header.Height % 10 ≠ 0 → c'.difficulty = c.difficulty) ∧
        (nb.Header.Height % 10 = 0 →
          c' = adjustDifficulty { blocks := c.blocks ++ [nb], difficulty := c.difficulty,
                                  utxo := updateUTXOSet c.utxo nb }))) ∧
    (∀ c : Chain, 2 ≤ c.blocks.length → c.difficulty < 4294967296 →
       ((lastTwoTimeDiff c < 30 → c.difficulty < 4294967295 →
          (adjustDifficulty c).difficulty = c.difficulty + 1) ∧
        (lastTwoTimeDiff c < 30 → c.difficulty = 4294967295 →
          (adjustDifficulty c).difficulty = 0) ∧
        (60 < lastTwoTimeDiff c → 1 < c.difficulty →
          (adjustDifficulty c).difficulty = c.difficulty - 1) ∧
        (30 ≤ lastTwoTimeDiff c → lastTwoTimeDiff c ≤ 60 →
          (adjustDifficulty c).difficulty = c.difficulty) ∧
        (60 < lastTwoTimeDiff c → c.difficulty ≤ 1 →
          (adjustDifficulty c).difficulty = c.difficulty))) := by
  constructor
  · intro H c txs ts fuel c' nb h hblocks
    obtain ⟨nb', hc'⟩ := addBlock_success_eq H c txs ts fuel c' h
    have hnb : nb' = nb := by
      have hb' : c'.blocks = c.blocks ++ [nb'] := by
        rw [hc']
        split
        · rw [adjustDifficulty_blocks]
        · rfl
      have := hb'.symm.trans hblocks
      have := List.append_cancel_left this
      exact (List.cons.injEq nb' [] nb []).mp this |>.1
    subst hnb
    constructor
    · intro hne
      rw [hc', if_neg hne]
    · intro heq
      rw [hc', if_pos heq]
  · intro c hlen hlt
    have hnot : ¬ c.blocks.length < 2 := by omega
    refine ⟨?_, ?_, ?_, ?_, ?_⟩
    · intro hd hsmall
      unfold adjustDifficulty
      rw [if_neg hnot, if_pos hd]
      exact Nat.mod_eq_of_lt (by omega)
    · intro hd hmax
      unfold adjustDifficulty
      rw [if_neg hnot, if_pos hd]
      rw [hmax]
    · intro hd hgt
      unfold adjustDifficulty
      rw [if_neg hnot, if_neg (by omega), if_pos ⟨hd, hgt⟩]
    · intro h30 h60
      unfold adjustDifficulty
      rw [if_neg hnot, if_neg (by omega), if_neg (by rintro ⟨hx, _⟩; omega)]
    · intro hd hle
      unfold adjustDifficulty
      rw [if_neg hnot, if_neg (by omega), if_neg (by rintro ⟨_, hx⟩; omega)]

def chain45 : Chain :=
  { blocks := [blkTs 0, blkTs 45], difficulty := 4, utxo := [] }

def minedW : Block :=
  { Header := { Version := 1, PreviousHash := zeros64, MerkleRoot := zeros64, Timestamp := 0,
                Difficulty := 1, Nonce := 1, Hash := zeros64, Height := 1 },
    Transactions := [cbZeroValue] }

def chainW2 : Chain :=
  { blocks := chainW.blocks ++ [minedW], difficulty := 1,
    utxo := updateUTXOSet chainW.utxo minedW }

theorem difficulty_adjustment_policy_witness :
    chainW2.difficulty = chainW.difficulty ∧
    (adjustDifficulty chain45).difficulty = chain45.difficulty :=
  ⟨(difficulty_adjustment_policy.1 hzero chainW [cbZeroValue] 0 1 chainW2 minedW
      (by decide) (by decide)).1 (by decide),
   (difficulty_adjustment_policy.2 chain45 (by decide) (by decide)).2.2.2.1
      (by decide) (by decide)⟩

/-! ## Mining postconditions (claims C3 and C10) -/

theorem calculateHash_hash_irrelevant (H : String → String) (hdr : BlockHeader) (v : String) :
    calculateHash H { hdr with Hash := v } = calculateHash H hdr := rfl

/-- A successful `mineLoop` run changes only the nonce and the stored
hash; the final stored hash is the hash of the final header and it
passed the target check. -/
theorem mineLoop_found (H : String → String) (target : String) :
    ∀ (fuel : Nat) (b b' : Block), mineLoop H target fuel b = .found b' →
      b'.Transactions = b.Transactions ∧
      b'.Header.Version = b.Header.Version ∧
      b'.Header.PreviousHash = b.Header.PreviousHash ∧
      b'.Header.MerkleRoot = b.Header.MerkleRoot ∧
      b'.Header.Timestamp = b.Header.Timestamp ∧
      b'.Header.Difficulty = b.Header.Difficulty ∧
      b'.Header.Height = b.Header.Height ∧
      b'.Header.Hash = calculateHash H b'.Header ∧
      isHashValidChecked b'.Header.Hash target = some true := by
  intro fuel
  induction fuel with
  | zero => intro b b' h; exact absurd h (by simp [mineLoop])
  | succ f ih =>
    intro b b' h
    simp only [mineLoop] at h
    cases hc : isHashValidChecked (calculateHash H (bumpNonce b).Header) target with
    | none => rw [hc] at h; exact absurd h (by simp)
    | some v =>
      rw [hc] at h
      cases v with
      | true =>
        simp only [] at h
        have hb' : b' = setHash (bumpNonce b) (calculateHash H (bumpNonce b).Header) := by
          exact (MineOutcome.found.injEq _ _).mp h.symm
        subst hb'
        refine ⟨rfl, rfl, rfl, rfl, rfl, rfl, rfl, ?_, ?_⟩
        · exact (calculateHash_hash_irrelevant H (bumpNonce b).Header
            (calculateHash H (bumpNonce b).Header)).symm
        · show isHashValidChecked (calculateHash H (bumpNonce b).Header) target = some true
          exact hc
      | false =>
        simp only [] at h
        have := ih (bumpNonce b) b' h
        simpa [bumpNonce] using this

theorem getTarget_length (d : Nat) : (getTarget d).length = d := by
  show (List.replicate d '0').length = d
  simp

theorem isHashValidChecked_true (hash target : String)
    (h : isHashValidChecked hash target = some true) :
    target.length ≤ hash.length ∧ strTake hash target.length = target := by
  unfold isHashValidChecked at h
  split at h
  · rename_i hle
    injection h with h
    exact ⟨hle, of_decide_eq_true h⟩
  · exact absurd h (by simp)

/-- Claim C3: when `Mine(d)` terminates, the stored header hash equals
the hash recomputed from the final header fields and begins with `d`
zero hex digits; and if the mined block was assembled by `NewBlock` over
the tip's hash and height + 1 from a well-formed transaction list, it
validates against that tip. -/
theorem mine_postconditions (H : String → String) (d fuel : Nat) (b b' : Block)
    (h : Block.Mine H d fuel b = .found b') :
    (b'.Header.Hash = calculateHash H b'.Header ∧ strTake b'.Header.Hash d = getTarget d) ∧
    (∀ (tip : Block) (txs : List Transaction) (ts : Int),
      b = NewBlock H txs tip.Header.Hash (tip.Header.Height + 1) ts →
      txs ≠ [] →
      headIsCoinbase txs = true →
      countCoinbase txs = 1 →
      (∀ tx ∈ txs, Transaction.Validate H tx = .ok ()) →
      Block.Validate H (some tip) b' = .ok ()) := by
  unfold Block.Mine at h
  have hf := mineLoop_found H (getTarget d) fuel _ b' h
  obtain ⟨htx, hver, hprev, hmr, hts, hdiff, hht, hhash, hvalid⟩ := hf
  have hpre := isHashValidChecked_true _ _ hvalid
  constructor
  · refine ⟨hhash, ?_⟩
    rw [getTarget_length] at hpre
    exact hpre.2
  · intro tip txs ts hb hne hcb hcount hall
    subst hb
    rw [validate_ok_iff]
    have htx' : b'.Transactions = txs := by
      rw [htx]
      rfl
    refine ⟨hhash, ?_, ?_, ?_, ?_, ?_, ?_⟩
    · intro p hp
      cases hp
      constructor
      · rw [hprev]
        rfl
      · rw [hht]
        rfl
    · have : calculateMerkleRoot H b' =
          calculateMerkleRoot H (NewBlock H txs tip.Header.Hash (tip.Header.Height + 1) ts) := by
        unfold calculateMerkleRoot
        rw [htx']
        rfl
      rw [this, hmr]
      rfl
    · rw [htx']
      exact hne
    · rw [htx']
      exact hcb
    · rw [htx']
      exact hall
    · rw [htx']
      exact hcount

theorem mine_postconditions_witness :
    Block.Mine hzero 1 1 (NewBlock hzero [cbZeroValue] gW.Header.Hash (gW.Header.Height + 1) 0) =
      .found minedW ∧
    strTake minedW.Header.Hash 1 = getTarget 1 ∧
    Block.Validate hzero (some gW) minedW = .ok () := by
  have h : Block.Mine hzero 1 1
      (NewBlock hzero [cbZeroValue] gW.Header.Hash (gW.Header.Height + 1) 0) = .found minedW := by
    decide
  have hm := mine_postconditions hzero 1 1
    (NewBlock hzero [cbZeroValue] gW.Header.Hash (gW.Header.Height + 1) 0) minedW h
  exact ⟨h, hm.1.2, hm.2 gW [cbZeroValue] 0 rfl (by decide) (by decide) (by decide)
    (by decide)⟩

/-- Claim C10: with a 64-hex-character hash function, the slice
`hash[:difficulty]` taken by the target check is in bounds on every
mining iteration when `difficulty ≤ 64`, and panics on the very first
iteration when `difficulty > 64`. -/
theorem mine_prefix_bounds (H : String → String) (hlen : ∀ s, (H s).length = 64)
    (d : Nat) (b : Block) (fuel : Nat) :
    (d ≤ 64 → Block.Mine H d fuel b ≠ .panicked) ∧
    (64 < d → 0 < fuel → Block.Mine H d fuel b = .panicked) := by
  constructor
  · intro hd
    unfold Block.Mine
    generalize { b with Header := { b.Header with Difficulty := d } } = b0
    induction fuel generalizing b0 with
    | zero => simp [mineLoop]
    | succ f ih =>
      simp only [mineLoop]
      have hhl : (calculateHash H (bumpNonce b0).Header).length = 64 := hlen _
      have hin : isHashValidChecked (calculateHash H (bumpNonce b0).Header) (getTarget d) =
          some (decide (strTake (calculateHash H (bumpNonce b0).Header) (getTarget d).length =
            getTarget d)) := by
        unfold isHashValidChecked
        rw [if_pos (by rw [getTarget_length, hhl]; exact hd)]
      rw [hin]
      cases hdec : decide (strTake (calculateHash H (bumpNonce b0).Header) (getTarget d).length =
          getTarget d) with
      | true => simp
      | false =>
        simp only []
        exact ih (bumpNonce b0)
  · intro hd hfuel
    unfold Block.Mine
    cases fuel with
    | zero => exact absurd hfuel (by omega)
    | succ f =>
      simp only [mineLoop]
      have hhl : (calculateHash H (bumpNonce { b with Header := { b.Header with Difficulty := d } }).Header).length = 64 :=
        hlen _
      have hout : isHashValidChecked
          (calculateHash H (bumpNonce { b with Header := { b.Header with Difficulty := d } }).Header)
          (getTarget d) = none := by
        unfold isHashValidChecked
        rw [if_neg (by rw [getTarget_length, hhl]; omega)]
      rw [hout]

theorem mine_prefix_bounds_witness :
    Block.Mine hzero 65 1 gW = .panicked ∧ Block.Mine hzero 1 1 gW ≠ .panicked :=
  ⟨(mine_prefix_bounds hzero hzero_length 65 gW 1).2 (by omega) (by omega),
   (mine_prefix_bounds hzero hzero_length 1 gW 1).1 (by omega)⟩

/-! ## `CreateTransaction` (claim C7) -/

/-- The sum of the values of a sequence of outputs (the claim's "sum of
all outputs indexed under an address"). -/
def sumValues (l : List TxOutput) : Int :=
  (l.map (fun o => o.Value)).sum

theorem wrap64_eq_self (x : Int) (hlo : -9223372036854775808 ≤ x)
    (hhi : x < 9223372036854775808) : wrap64 x = x := by
  unfold wrap64
  rw [Int.emod_eq_of_lt (by omega) (by omega)]
  omega

theorem sumValues_nonneg (l : List TxOutput) (h : ∀ o ∈ l, 0 ≤ o.Value) :
    0 ≤ sumValues l := by
  apply List.sum_nonneg
  intro x hx
  obtain ⟨o, ho, rfl⟩ := List.mem_map.mp hx
  exact h o ho

/-- As long as the values are non-negative and their total stays inside
the `int64` range, the wrapping greedy accumulator falls short of the
amount exactly when the mathematical sum does. -/
theorem gather_wrap_iff (a : String) (m : Int) :
    ∀ (l : List TxOutput) (t : Int) (ins : List TxInput),
      (∀ o ∈ l, 0 ≤ o.Value) → 0 ≤ t → t + sumValues l < 9223372036854775808 →
      ((gatherInputs a m l t ins).1 < m ↔ t + sumValues l < m) := by
  intro l
  induction l with
  | nil =>
    intro t ins _ _ _
    simp [gatherInputs, sumValues]
  | cons u rest ih =>
    intro t ins hpos ht hbound
    have hu : 0 ≤ u.Value := hpos u (List.mem_cons_self u rest)
    have hrest : ∀ o ∈ rest, 0 ≤ o.Value := fun o ho => hpos o (List.mem_cons_of_mem u ho)
    have hsr : 0 ≤ sumValues rest := sumValues_nonneg rest hrest
    have hcons : sumValues (u :: rest) = u.Value + sumValues rest := by
      simp [sumValues]
    by_cases hstop : m ≤ t
    · rw [gatherInputs, if_pos hstop]
      have hs : 0 ≤ sumValues (u :: rest) := sumValues_nonneg _ hpos
      constructor
      · intro h
        omega
      · intro h
        omega
    · rw [gatherInputs, if_neg hstop]
      rw [hcons] at hbound
      have hwrap : wrap64 (t + u.Value) = t + u.Value :=
        wrap64_eq_self _ (by omega) (by omega)
      rw [hwrap]
      rw [ih (t + u.Value) _ hrest (by omega) (by omega)]
      rw [hcons]
      omega

def chainNegUtxo : Chain :=
  { blocks := [gW], difficulty := 1,
    utxo := [("A", [{ Value := 50, Address := "A" }, { Value := -100, Address := "A" }])] }

/-- Counterexample to claim C7 as stated: with a bucket holding outputs
of values 50 and −100 under address `A` (reachable, since coinbase
output values are never checked for positivity), the indexed sum is −50,
strictly below the requested amount 30, yet `CreateTransaction`
succeeds — the greedy loop stops as soon as its running total reaches
the amount, so the "fails iff the full sum is below the amount"
equivalence does not hold. -/
theorem create_transaction_negative_utxo_cex :
    sumValues (FindUTXO chainNegUtxo "A") = -50 ∧
    sumValues (FindUTXO chainNegUtxo "A") < 30 ∧
    (CreateTransaction hzero chainNegUtxo "A" "B" 30 0).1 =
      .ok (NewTransaction hzero
        [{ TxID := "", OutputIndex := 0, PublicKey := "A", Signature := "" }]
        [{ Value := 30, Address := "B" }, { Value := 20, Address := "A" }] 0) := by
  refine ⟨by decide, by decide, by decide⟩

/-- Claim C7 (amended twice over: the insufficient-funds test agrees
with the claim's mathematical indexed sum only when every indexed output
value is non-negative — values can be negative, see the counterexample —
and their total stays inside the `int64` range, since the Go accumulator
wraps — see `gather_wrap64_demo`): `CreateTransaction` never mutates the
chain state; under those two provisos it fails with `InsufficientFunds`
iff the indexed sum is strictly below the amount; and a successful call
returns a transaction with one output of the amount to the recipient
plus, exactly when the greedily accumulated total strictly exceeds the
amount, one change output of their `int64` difference. -/
theorem create_transaction_spec (H : String → String) (c : Chain) (a b : String)
    (m ts : Int) :
    ((CreateTransaction H c a b m ts).2 = c) ∧
    ((∀ o ∈ FindUTXO c a, 0 ≤ o.Value) →
      sumValues (FindUTXO c a) < 9223372036854775808 →
      ((CreateTransaction H c a b m ts).1 = .error .insufficientFunds ↔
        sumValues (FindUTXO c a) < m)) ∧
    (∀ tx, (CreateTransaction H c a b m ts).1 = .ok tx →
      tx.Outputs = { Value := m, Address := b } ::
        (if m < (gatherInputs a m (FindUTXO c a) 0 []).1
         then [{ Value := wrap64 ((gatherInputs a m (FindUTXO c a) 0 []).1 - m), Address := a }]
         else [])) := by
  refine ⟨?_, ?_, ?_⟩
  · simp only [CreateTransaction]
    split
    · rfl
    · rfl
  · intro hpos hbound
    have hiff := gather_wrap_iff a m (FindUTXO c a) 0 [] hpos (by omega) (by omega)
    simp only [CreateTransaction]
    split
    · rename_i hlt
      have hsum := hiff.mp hlt
      constructor
      · intro _
        omega
      · intro _
        rfl
    · rename_i hge
      constructor
      · intro h
        exact absurd h (by simp)
      · intro hsum
        exact absurd (hiff.mpr (by omega)) hge
  · intro tx htx
    simp only [CreateTransaction] at htx
    split at htx
    · exact absurd htx (by simp)
    · rename_i hge
      injection htx with htx
      rw [← htx]
      rfl

def chainFunds : Chain :=
  { blocks := [gW], difficulty := 1, utxo := [("alice", [{ Value := 50, Address := "alice" }])] }

theorem create_transaction_spec_witness :
    (CreateTransaction hzero chainFunds "alice" "bob" 100 0).1 = .error .insufficientFunds ∧
    (CreateTransaction hzero chainFunds "alice" "bob" 100 0).2 = chainFunds :=
  ⟨((create_transaction_spec hzero chainFunds "alice" "bob" 100 0).2.1
      (by decide) (by decide)).mpr (by decide),
   (create_transaction_spec hzero chainFunds "alice" "bob" 100 0).1⟩

def chainBig : Chain :=
  { blocks := [gW], difficulty := 1,
    utxo := [("A", [{ Value := 9223372036854775806, Address := "A" },
                    { Value := 2, Address := "A" }])] }

/-- The overflow behind the range proviso of the amended claim C7,
reachable because coinbase output values are never checked: with indexed
outputs of values 2^63 − 2 and 2 and a requested amount of 2^63 − 1, the
`int64` accumulator wraps to −2^63 and `CreateTransaction` reports
insufficient funds although the mathematical indexed sum 2^63 exceeds
the amount. -/
theorem gather_wrap64_demo :
    sumValues (FindUTXO chainBig "A") = 9223372036854775808 ∧
    (gatherInputs "A" 9223372036854775807 (FindUTXO chainBig "A") 0 []).1 =
      -9223372036854775808 ∧
    (CreateTransaction hzero chainBig "A" "B" 9223372036854775807 0).1 =
      .error .insufficientFunds := by
  refine ⟨by decide, by decide, by decide⟩

/-! ## Tamper detection by `ValidateChain` (claim C8) -/

/-- Replacement of one of the four claim-listed header fields by a
given value. -/
inductive FieldMut where
  | prevHash (v : String)
  | hashField (v : String)
  | merkleRoot (v : String)
  | heightField (v : Int)
  deriving DecidableEq

def applyMut : FieldMut → Block → Block
  | .prevHash v, b => { b with Header := { b.Header with PreviousHash := v } }
  | .hashField v, b => { b with Header := { b.Header with Hash := v } }
  | .merkleRoot v, b => { b with Header := { b.Header with MerkleRoot := v } }
  | .heightField v, b => { b with Header := { b.Header with Height := v } }

/-- Whether the replacement value actually differs from the stored
field ("changing ... to any different value"). -/
def mutDiffers : FieldMut → Block → Bool
  | .prevHash v, b => v != b.Header.PreviousHash
  | .hashField v, b => v != b.Header.Hash
  | .merkleRoot v, b => v != b.Header.MerkleRoot
  | .heightField v, b => v != b.Header.Height

theorem calculateMerkleRoot_applyMut (H : String → String) (m : FieldMut) (b : Block) :
    calculateMerkleRoot H (applyMut m b) = calculateMerkleRoot H b := by
  cases m <;> rfl

/-- A block that validates against its predecessor no longer does after
any of the four fields is replaced by a different value. -/
theorem validate_mut_fails (H : String → String) (p b : Block) (m : FieldMut)
    (hok : Block.Validate H (some p) b = .ok ()) (hm : mutDiffers m b = true) :
    Block.Validate H (some p) (applyMut m b) ≠ .ok () := by
  rw [validate_ok_iff] at hok
  obtain ⟨h1, h2, h3, _, _, _, _⟩ := hok
  have hlk := h2 p rfl
  intro hok'
  rw [validate_ok_iff] at hok'
  obtain ⟨g1, g2, g3, _, _, _, _⟩ := hok'
  have glk := g2 p rfl
  cases m with
  | prevHash v =>
    have hne : v ≠ b.Header.PreviousHash := by simpa [mutDiffers] using hm
    have hv : v = p.Header.Hash := glk.1
    exact hne (hv.trans hlk.1.symm)
  | hashField v =>
    have hne : v ≠ b.Header.Hash := by simpa [mutDiffers] using hm
    have hv : v = calculateHash H { b.Header with Hash := v } := g1
    rw [calculateHash_hash_irrelevant] at hv
    exact hne (hv.trans h1.symm)
  | merkleRoot v =>
    have hne : v ≠ b.Header.MerkleRoot := by simpa [mutDiffers] using hm
    have hv : v = calculateMerkleRoot H (applyMut (.merkleRoot v) b) := g3
    rw [calculateMerkleRoot_applyMut] at hv
    exact hne (hv.trans h3.symm)
  | heightField v =>
    have hne : v ≠ b.Header.Height := by simpa [mutDiffers] using hm
    have hv : v = p.Header.Height + 1 := glk.2
    exact hne (hv.trans hlk.2.symm)

theorem validateChainAux_mut (H : String → String) (m : FieldMut) :
    ∀ (tl : List Block) (prev : Block) (idx i : Nat)
      (hok : validateChainAux H prev tl idx = .ok ()) (hi : i < tl.length),
      mutDiffers m (tl.get ⟨i, hi⟩) = true →
      ∃ e, validateChainAux H prev (tl.set i (applyMut m (tl.get ⟨i, hi⟩))) idx =
        .error (idx + i, e) := by
  intro tl
  induction tl with
  | nil => intro prev idx i _ hi; exact absurd hi (by simp)
  | cons b rest ih =>
    intro prev idx i hok hi hm
    have hv : Block.Validate H (some prev) b = .ok () := by
      cases hvb : Block.Validate H (some prev) b with
      | error e =>
        rw [validateChainAux, hvb] at hok
        exact absurd hok (by simp)
      | ok u => cases u; rfl
    have hrest : validateChainAux H b rest (idx + 1) = .ok () := by
      rw [validateChainAux, hv] at hok
      exact hok
    cases i with
    | zero =>
      have hbad := validate_mut_fails H prev b m hv hm
      cases hv' : Block.Validate H (some prev) (applyMut m b) with
      | error e =>
        refine ⟨e, ?_⟩
        show validateChainAux H prev (applyMut m b :: rest) idx = .error (idx + 0, e)
        rw [validateChainAux, hv']
        rfl
      | ok u =>
        cases u
        exact absurd hv' hbad
    | succ j =>
      have hj : j < rest.length := Nat.lt_of_succ_lt_succ hi
      obtain ⟨e, he⟩ := ih b (idx + 1) j hrest hj hm
      refine ⟨e, ?_⟩
      show validateChainAux H prev (b :: rest.set j (applyMut m (rest.get ⟨j, hj⟩))) idx =
        .error (idx + (j + 1), e)
      rw [validateChainAux, hv]
      have harith : idx + 1 + j = idx + (j + 1) := by omega
      rw [harith] at he
      exact he

/-- Claim C8: on a chain accepted by `ValidateChain`, replacing the
`previous_hash`, `hash`, `merkle_root` or `height` of any single
non-genesis block by any different value makes `ValidateChain` fail, and
the reported failure position is that block's index. -/
theorem chain_mutation_detected (H : String → String) (bs : List Block) (i : Nat)
    (m : FieldMut) (hok : validateChain H bs = .ok ()) (h1 : 1 ≤ i) (hi : i < bs.length)
    (hm : mutDiffers m (bs.get ⟨i, hi⟩) = true) :
    ∃ e, validateChain H (bs.set i (applyMut m (bs.get ⟨i, hi⟩))) = .error (i, e) := by
  cases bs with
  | nil => exact absurd hi (by simp)
  | cons b0 tl =>
    cases i with
    | zero => exact absurd h1 (by omega)
    | succ j =>
      have hj : j < tl.length := Nat.lt_of_succ_lt_succ hi
      have hok' : validateChainAux H b0 tl 1 = .ok () := hok
      have hm' : mutDiffers m (tl.get ⟨j, hj⟩) = true := hm
      obtain ⟨e, he⟩ := validateChainAux_mut H m tl b0 1 j hok' hj hm'
      refine ⟨e, ?_⟩
      show validateChainAux H b0 (tl.set j (applyMut m (tl.get ⟨j, hj⟩))) 1 = .error (j + 1, e)
      have harith : 1 + j = j + 1 := by omega
      rw [harith] at he
      exact he

theorem chain_mutation_detected_witness :
    validateChain hzero [gW, minedW] = .ok () ∧
    (∃ e, validateChain hzero
        ([gW, minedW].set 1 (applyMut (FieldMut.heightField 99)
          ([gW, minedW].get ⟨1, by decide⟩))) = .error (1, e)) :=
  ⟨by decide,
   chain_mutation_detected hzero [gW, minedW] 1 (FieldMut.heightField 99)
     (by decide) (by omega) (by decide) (by decide)⟩
